import Mathlib

/-!
Verification of the pi-blocker-c DNS filtering proxy (src/dns.h, src/dns.c,
src/main.c) against its design specification.

The C code is shallowly embedded: packet buffers and C strings are `List Nat`
(byte values), pointers into the packet become natural-number offsets, machine
integers become `Nat`/`Int`, and `NULL`-returning functions become `Option`.
Functions whose C originals loop on a counter are written with a structural
fuel argument that is exactly the remaining loop budget (for `read_name` the
fuel is `MAX_LOOP_COUNT - loop_count`, so fuel exhaustion is precisely the C
loop guard); where fuel is only a termination device (binary search, the
blocklist parent walk) it is instantiated with a provably sufficient bound and
the lemmas below show the result does not depend on it.

The decoder model additionally records, next to the values the C code
computes, the packet-buffer indices it dereferences and the name-buffer
indices it writes (`reads` / `writes`), and the number of executed loop
iterations (`iters`).  These instrumentation fields are write-only: no
computed value depends on them, so the value parts stay in lock step with the
C code.
-/

set_option maxRecDepth 100000

namespace PiBlocker

/-- dns.h: `#define DNS_BUFFER_SIZE 512` -/
def DNS_BUFFER_SIZE : Nat := 512

/-- dns.h: `#define DNS_NAME_SIZE 256` -/
def DNS_NAME_SIZE : Nat := 256

/-- dns.h: `#define MAX_LOOP_COUNT 100` -/
def MAX_LOOP_COUNT : Nat := 100

/-- dns.h: `#define JUMP_HEX_VALUE 0xC0` -/
def JUMP_HEX_VALUE : Nat := 0xC0

/-- dns.h: `#define FIRST_OFFSET_HEX_VALUE 0x3F` -/
def FIRST_OFFSET_HEX_VALUE : Nat := 0x3F

/-- dns.h: `#define DNS_FLAG_QR 0x8000` -/
def DNS_FLAG_QR : Nat := 0x8000

/-- Convert a Lean string literal to the byte list of the corresponding
ASCII C string (used only to build concrete inputs). -/
def strBytes (s : String) : List Nat := s.data.map Char.toNat

-- ---------- BLOCKLIST ENGINE (dns.c: compare_strings / check_domain / is_blocked) ----------

/-- C `strcmp` on NUL-free byte strings: lexicographic byte comparison, a
strict prefix comparing less (its terminating NUL byte 0 is below any
non-NUL byte). -/
def strcmp : List Nat → List Nat → Ordering
  | [], [] => .eq
  | [], _ :: _ => .lt
  | _ :: _, [] => .gt
  | a :: as, b :: bs =>
    if a < b then .lt else if b < a then .gt else strcmp as bs

/-- `strcmp a b = .lt`, the strict order used for blocklist sortedness. -/
def strlt (a b : List Nat) : Prop := strcmp a b = .lt

instance : DecidablePred fun p : List Nat × List Nat => strlt p.1 p.2 :=
  fun _ => inferInstanceAs (Decidable (_ = _))

instance (a b : List Nat) : Decidable (strlt a b) :=
  inferInstanceAs (Decidable (_ = _))

/-- C `bsearch` over a sorted array of strings, as used by `check_domain`:
the glibc halving loop on `(base, num)` with probe index `base + num / 2`.
`fuel` makes the recursion structural; it is called with `fuel = num` and
every recursive call shrinks `num`, so the `fuel = 0` branch is unreachable
(see `bsearch_loop_fuel_irrel`). -/
def bsearch_loop (key : List Nat) (l : List (List Nat)) :
    Nat → Nat → Nat → Bool
  | _, _, 0 => false
  | base, num, fuel + 1 =>
    if num = 0 then false
    else
      let mid := num / 2
      match strcmp key (l.getD (base + mid) []) with
      | .eq => true
      | .gt => bsearch_loop key l (base + mid + 1) (num - mid - 1) fuel
      | .lt => bsearch_loop key l base mid fuel

/-- dns.c `check_domain`: binary search of `domain` in the (assumed sorted)
blocklist table; an absent or empty table never matches. -/
def check_domain (bl : List (List Nat)) (domain : List Nat) : Bool :=
  if bl.isEmpty then false
  else bsearch_loop domain bl 0 bl.length bl.length

/-- C `strchr(s, '.')` followed by the `dot + 1` step of `is_blocked`:
the suffix strictly after the first `'.'` (byte 46), or `none` when the
string has no dot. -/
def dropThroughDot : List Nat → Option (List Nat)
  | [] => none
  | c :: cs => if c = 46 then some cs else dropThroughDot cs

/-- The `while (dot != NULL)` walk of dns.c `is_blocked`, starting from the
suffix after a dot: look for the next dot first, break without testing when
there is none, otherwise test the current parent and continue behind its
first dot.  `fuel` makes the recursion structural; each step strictly
shortens the string, so with `fuel ≥ parent.length` the `fuel = 0` branch is
unreachable (see `walkParents_fuel_irrel`). -/
def walkParents (bl : List (List Nat)) : Nat → List Nat → Bool
  | 0, _ => false
  | fuel + 1, parent =>
    match dropThroughDot parent with
    | none => false
    | some rest =>
      if check_domain bl parent then true else walkParents bl fuel rest

/-- dns.c `is_blocked`: exact match first, then the parent-domain walk
behind the first dot. -/
def is_blocked (bl : List (List Nat)) (host : List Nat) : Bool :=
  if check_domain bl host then true
  else
    match dropThroughDot host with
    | none => false
    | some parent => walkParents bl parent.length parent

/-- Spec-side definition (for the C4 refinement statement, from the spec's
words): the suffixes of `host` obtained after each `'.'`, i.e. the parents
obtained by repeatedly stripping the leftmost label. -/
def dotSuffixes : List Nat → List (List Nat)
  | [] => []
  | c :: cs => if c = 46 then cs :: dotSuffixes cs else dotSuffixes cs

/-- Spec-side definition (for the C4 refinement statement, from the spec's
words): the parents that the blocklist walk is supposed to test — every
parent obtained by stripping leftmost labels that still contains a dot; a
parent with no remaining dot is never tested. -/
def strictParents (host : List Nat) : List (List Nat) :=
  (dotSuffixes host).filter fun p => (dropThroughDot p).isSome

-- ---------- NAME DECODER (dns.c: read_name) ----------

/-- The mutable state of `read_name`'s main loop: `pos` is `reader - buffer`,
`count` is `*count`, `nameOff` is `name_offset`, `jumped` the jump flag, and
`name` the 256-byte `calloc`ed name buffer. -/
structure LoopSt where
  pos : Nat
  count : Nat
  nameOff : Nat
  jumped : Bool
  name : List Nat
  deriving Repr, DecidableEq

/-- Result of `read_name`'s loop: `res = none` models the `return NULL` on
the name-buffer overrun check; otherwise the state at loop exit.  `reads`
and `writes` record the packet-buffer indices dereferenced and the
name-buffer indices written; `iters` counts executed loop iterations. -/
structure LoopOut where
  res : Option LoopSt
  reads : List Nat
  writes : List Nat
  iters : Nat
  deriving Repr, DecidableEq

/-- C `memcpy(&name[nameOff], buffer + src, len)`: byte-by-byte copy from
the packet into the name buffer. -/
def memcpyName (name : List Nat) (nameOff : Nat) (buf : List Nat)
    (src len : Nat) : List Nat :=
  match len with
  | 0 => name
  | n + 1 => memcpyName (name.set nameOff (buf.getD src 0)) (nameOff + 1) buf (src + 1) n

/-- dns.c `read_name` main loop,
`while (*reader != 0 && *count < DNS_NAME_SIZE && loop_count < MAX_LOOP_COUNT)`.
The fuel argument is exactly `MAX_LOOP_COUNT - loop_count`, so `fuel = 0` is
the `loop_count < MAX_LOOP_COUNT` guard failing.  Every loop-entry test
dereferences `*reader`, recorded as a read of `pos` (including the final,
failing test). -/
def readNameLoop (buf : List Nat) : LoopSt → Nat → LoopOut
  | s, 0 => ⟨some s, [s.pos], [], 0⟩
  | s, fuel + 1 =>
    if buf.getD s.pos 0 = 0 ∨ DNS_NAME_SIZE ≤ s.count then
      ⟨some s, [s.pos], [], 0⟩
    else
      let b := buf.getD s.pos 0
      if b &&& JUMP_HEX_VALUE = JUMP_HEX_VALUE then
        -- compression pointer: low 6 bits of byte 1 with all of byte 2
        let jumpOffset := ((b &&& FIRST_OFFSET_HEX_VALUE) <<< 8) ||| buf.getD (s.pos + 1) 0
        let out := readNameLoop buf
          ⟨jumpOffset, if s.jumped then s.count else s.count + 2,
            s.nameOff, true, s.name⟩ fuel
        ⟨out.res, s.pos :: (s.pos + 1) :: out.reads, out.writes, out.iters + 1⟩
      else
        let segLen := b
        if DNS_NAME_SIZE ≤ s.nameOff + segLen + 1 then
          -- `return NULL` guarding the name buffer
          ⟨none, [s.pos], [], 1⟩
        else
          let name2 := (memcpyName s.name s.nameOff buf (s.pos + 1) segLen).set
            (s.nameOff + segLen) 46
          let out := readNameLoop buf
            ⟨s.pos + segLen + 1,
              (if s.jumped then s.count else s.count + segLen + 1),
              s.nameOff + segLen + 1, s.jumped, name2⟩ fuel
          ⟨out.res,
            s.pos :: ((List.range segLen).map (fun i => s.pos + 1 + i) ++ out.reads),
            (List.range segLen).map (fun i => s.nameOff + i) ++
              (s.nameOff + segLen) :: out.writes,
            out.iters + 1⟩

/-- The bytes of the returned `char *` name: everything before the first NUL
byte of the name buffer. -/
def cString (l : List Nat) : List Nat := l.takeWhile fun c => c ≠ 0

/-- Instrumented result of `read_name`: the decoded name and `*count` (or
`none` for the `NULL` return), plus the recorded reads, writes and
iteration count. -/
structure NameOut where
  res : Option (List Nat × Nat)
  reads : List Nat
  writes : List Nat
  iters : Nat
  deriving Repr, DecidableEq

/-- dns.c `read_name` on packet `buf` starting at offset `start`
(`reader = buffer + start`): zeroed 256-byte name buffer, the main loop,
then trailing-dot removal and the final `*count += 1` for the unjumped
case.  The model omits the C-side `NULL`-argument and `calloc`-failure
checks (in the embedding arguments always exist and allocation succeeds);
both simply yield the same `NULL` result as `res = none`. -/
def read_name_instr (buf : List Nat) (start : Nat) : NameOut :=
  let out := readNameLoop buf ⟨start, 0, 0, false, List.replicate DNS_NAME_SIZE 0⟩
    MAX_LOOP_COUNT
  match out.res with
  | none => ⟨none, out.reads, out.writes, out.iters⟩
  | some s =>
    let finalIdx := if 0 < s.nameOff then s.nameOff - 1 else 0
    let name2 := s.name.set finalIdx 0
    let count2 := if s.jumped then s.count else s.count + 1
    ⟨some (cString name2, count2), out.reads, out.writes ++ [finalIdx], out.iters⟩

/-- dns.c `read_name`, value part: `none` models the `NULL` return. -/
def read_name (buf : List Nat) (start : Nat) : Option (List Nat × Nat) :=
  (read_name_instr buf start).res

-- ---------- RESPONSE SYNTHESIS AND DISPATCH (main.c / dns.c) ----------

/-- C `tolower` on a byte. -/
def toLowerByte (c : Nat) : Nat := if 65 ≤ c ∧ c ≤ 90 then c + 32 else c

/-- main.c / dns.c blocked branch:
`header->flags = htons(ntohs(header->flags) | DNS_FLAG_QR | 0x0005)` —
read the big-endian 16-bit flags at bytes 2–3, OR in QR and 5, store back
big-endian (the `% 65536` is the `uint16_t` store; it never truncates on
byte-valued buffers). -/
def refuse (buf : List Nat) : List Nat :=
  let flags := buf.getD 2 0 * 256 + buf.getD 3 0
  let flags2 := (flags ||| DNS_FLAG_QR ||| 5) % 65536
  (buf.set 2 (flags2 / 256)).set 3 (flags2 % 256)

/-- What one iteration of main.c's dispatch loop does with a received
datagram, observably: whether `read_name` was invoked, the datagram sent
back to the client (if any), and the datagram forwarded upstream (if
any). -/
structure StepOut where
  decoderInvoked : Bool
  reply : Option (List Nat)
  forwarded : Option (List Nat)
  deriving Repr, DecidableEq

/-- One iteration of main.c's `while(1)` dispatch loop, for a received
datagram of `qsize` bytes in the 512-byte buffer `buf`; `upstream` is the
environment's answer to the forwarded query (`none` = `recv_with_timeout`
yielded no data).  Mirrors main.c: drop short datagrams before decoding,
drop on decoder failure, otherwise lower-case, classify, and either mutate
the header in place and echo `qsize` bytes back, or forward the original
bytes and relay a positive-size upstream response. -/
def mainStep (bl : List (List Nat)) (buf : List Nat) (qsize : Nat)
    (upstream : Option (List Nat)) : StepOut :=
  if qsize < 12 then ⟨false, none, none⟩
  else
    match read_name buf 12 with
    | none => ⟨true, none, none⟩
    | some (nm, _) =>
      let host := nm.map toLowerByte
      if is_blocked bl host then
        ⟨true, some ((refuse buf).take qsize), none⟩
      else
        match upstream with
        | some resp => ⟨true, some resp, some (buf.take qsize)⟩
        | none => ⟨true, none, some (buf.take qsize)⟩

/-- Per-task outcome of dns.c `handle_dns_request`. `crash` models the
undefined behaviour of dereferencing the decoder's `NULL` result (the
`tolower` loop runs on `domain_name` with no `NULL` check). -/
inductive TaskOutcome where
  | crash
  | refused (reply : List Nat)
  | relayed (upstreamQuery reply : List Nat)
  | upstreamTimeout (upstreamQuery : List Nat)
  deriving Repr, DecidableEq

/-- dns.c `handle_dns_request` on a task with buffer `buf` and received size
`qsize`; `upstream` as in `mainStep`.  Unlike main.c's loop, the function
uses `domain_name` immediately after `read_name` without a `NULL` check. -/
def handle_dns_request (bl : List (List Nat)) (buf : List Nat) (qsize : Nat)
    (upstream : Option (List Nat)) : TaskOutcome :=
  match read_name buf 12 with
  | none => .crash
  | some (nm, _) =>
    let host := nm.map toLowerByte
    if is_blocked bl host then .refused ((refuse buf).take qsize)
    else
      match upstream with
      | some resp => .relayed (buf.take qsize) resp
      | none => .upstreamTimeout (buf.take qsize)

/-- dns.c / main.c `recv_with_timeout`, as a function of the environment's
results: `activity` is what `poll` returned, `recvResult` what `recvfrom`
would return once data is ready.  Timeout returns 0, a poll error returns
-1, otherwise the `recvfrom` result is passed through. -/
def recv_with_timeout (activity : Int) (recvResult : Int) : Int :=
  if activity = 0 then 0
  else if activity < 0 then -1
  else recvResult

-- ---------- WIRE-FORMAT ENCODING (spec §8 round-trip) ----------

/-- The uncompressed label encoding of a name given as its label list:
each label as a length byte followed by its bytes, then the terminating
zero byte (`www.example.com` ↦ `3www7example3com0`). -/
def encodeName : List (List Nat) → List Nat
  | [] => [0]
  | l :: ls => (l.length :: l) ++ encodeName ls

/-- The wire size of the encoded labels excluding the terminating zero:
`Σ (length + 1)`. -/
def nameLen (labels : List (List Nat)) : Nat :=
  (labels.map fun l => l.length + 1).sum

/-- Spec-side definition: the dot-joined (dotted) name denoted by a label
list (`[www, example, com] ↦ www.example.com`). -/
def dottedName : List (List Nat) → List Nat
  | [] => []
  | [l] => l
  | l :: ls => l ++ 46 :: dottedName ls

/-- Every label followed by a trailing dot — the form the decoder's name
buffer holds before the trailing separator is stripped. -/
def dotsAfter (labels : List (List Nat)) : List Nat :=
  (labels.map fun l => l ++ [46]).flatten

/-- Sequential byte writes into the name buffer (the effect of one
`memcpy` whose source bytes are known). -/
def writeBytes (name : List Nat) (off : Nat) : List Nat → List Nat
  | [] => name
  | c :: cs => writeBytes (name.set off c) (off + 1) cs

/-- The cumulative effect of the decoder's label iterations on the name
buffer: each label's bytes are written at the running offset, followed by
a `'.'` (byte 46). -/
def writeLabels (name : List Nat) (off : Nat) : List (List Nat) → List Nat
  | [] => name
  | l :: ls => writeLabels ((writeBytes name off l).set (off + l.length) 46) (off + l.length + 1) ls

-- ---------- CONCRETE INPUTS ----------

/-- A 12-byte all-zero DNS header. -/
def hdr12 : List Nat := List.replicate 12 0

/-- Packet whose question name is the uncompressed `www.example.com`. -/
def wwwLabels : List (List Nat) :=
  [strBytes "www", strBytes "example", strBytes "com"]

def wwwPkt : List Nat := hdr12 ++ encodeName wwwLabels

/-- Packet whose question name is a compression pointer pointing at itself
(bytes `0xC0 0x0C` at offset 12, target offset 12). -/
def cyclePkt : List Nat := hdr12 ++ [0xC0, 0x0C]

/-- 512-byte packet buffer whose question name is a compression pointer
`0xC3 0xFF`: 14-bit target offset 1023, outside the 512-byte buffer. -/
def oobPkt : List Nat := hdr12 ++ [0xC3, 0xFF] ++ List.replicate 498 0

/-- Packet whose question name is a label of declared length 191 followed
by a label of declared length 63: the second label fails the name-buffer
bound check (192 + 63 + 1 ≥ 256). -/
def overrunPkt : List Nat := hdr12 ++ (191 :: List.replicate 191 65) ++ [63]

/-- Packet with the name `a` at offset 12 followed (at offset 15) by a
compression pointer back to offset 12. -/
def compPkt : List Nat := hdr12 ++ [1, 97, 0] ++ [0xC0, 0x0C]

/-- 101 single-byte labels `a`: a valid wire name (2·101 + 1 = 203 bytes,
under the 255-byte name limit) with more labels than `MAX_LOOP_COUNT`
allows. -/
def labels101 : List (List Nat) := List.replicate 101 [97]

/-- Packet whose question name is the uncompressed encoding of
`labels101`. -/
def pkt101 : List Nat := hdr12 ++ encodeName labels101

/-- The spec's example blocklist table, sorted. -/
def exTable : List (List Nat) := [strBytes "ads.example.com", strBytes "example.org"]

/-- Blocklist containing exactly the domain `a`. -/
def aTable : List (List Nat) := [[97]]

/-- Header with nonzero RCODE bits (byte 3 = 0x02) and question name `a`:
a blocked query whose original RCODE is 2. -/
def rcode2Pkt : List Nat := [0, 0, 0, 2, 0, 0, 0, 0, 0, 0, 0, 0] ++ [1, 97, 0]

/-- A blocked query with all-zero flags and question name `a`. -/
def aPkt : List Nat := hdr12 ++ [1, 97, 0]

-- ====================================================================
-- Lemmas about strcmp (the order underlying the sorted blocklist)
-- ====================================================================

theorem strcmp_self (a : List Nat) : strcmp a a = .eq := by
  induction a with
  | nil => rfl
  | cons x xs ih => simp [strcmp, ih]

theorem strcmp_eq_iff : ∀ a b : List Nat, strcmp a b = .eq ↔ a = b
  | [], [] => by simp [strcmp]
  | [], _ :: _ => by simp [strcmp]
  | _ :: _, [] => by simp [strcmp]
  | a :: as, b :: bs => by
    rcases Nat.lt_trichotomy a b with h | h | h
    · have hba : ¬ b < a := Nat.lt_asymm h
      simp only [strcmp, if_pos h]
      constructor
      · intro hc; cases hc
      · intro hc
        injection hc with h1 _
        omega
    · subst h
      have hstep : strcmp (a :: as) (a :: bs) = strcmp as bs := by
        simp [strcmp]
      rw [hstep, strcmp_eq_iff as bs]
      constructor
      · intro h2; rw [h2]
      · intro h2; injection h2
    · have hab : ¬ a < b := Nat.lt_asymm h
      simp only [strcmp, if_neg hab, if_pos h]
      constructor
      · intro hc; cases hc
      · intro hc
        injection hc with h1 _
        omega

theorem strcmp_gt_iff : ∀ a b : List Nat, strcmp a b = .gt ↔ strcmp b a = .lt
  | [], [] => by simp [strcmp]
  | [], _ :: _ => by simp [strcmp]
  | _ :: _, [] => by simp [strcmp]
  | a :: as, b :: bs => by
    rcases Nat.lt_trichotomy a b with h | h | h
    · have hba : ¬ b < a := Nat.lt_asymm h
      simp [strcmp, h, hba]
    · subst h
      simp only [strcmp, if_neg (Nat.lt_irrefl a)]
      exact strcmp_gt_iff as bs
    · have hab : ¬ a < b := Nat.lt_asymm h
      simp [strcmp, h, hab]

theorem strlt_trans : ∀ a b c : List Nat, strlt a b → strlt b c → strlt a c
  | [], b, c, _, hbc => by
    cases c with
    | nil =>
      exfalso
      cases b with
      | nil => exact absurd hbc (by simp [strlt, strcmp])
      | cons y ys => exact absurd hbc (by simp [strlt, strcmp])
    | cons z zs => simp [strlt, strcmp]
  | a :: as, b, c, hab, hbc => by
    cases b with
    | nil => exact absurd hab (by simp [strlt, strcmp])
    | cons y ys =>
      cases c with
      | nil => exact absurd hbc (by simp [strlt, strcmp])
      | cons z zs =>
        simp only [strlt, strcmp] at hab hbc ⊢
        rcases Nat.lt_trichotomy a y with h1 | h1 | h1
        · rcases Nat.lt_trichotomy y z with h2 | h2 | h2
          · rw [if_pos (Nat.lt_trans h1 h2)]
          · subst h2; rw [if_pos h1]
          · rw [if_neg (Nat.lt_asymm h2), if_pos h2] at hbc; cases hbc
        · subst h1
          rcases Nat.lt_trichotomy a z with h2 | h2 | h2
          · rw [if_pos h2]
          · subst h2
            rw [if_neg (Nat.lt_irrefl a)] at hab hbc ⊢
            rw [if_neg (Nat.lt_irrefl a)] at hab hbc ⊢
            exact strlt_trans as ys zs hab hbc
          · rw [if_neg (Nat.lt_asymm h2), if_pos h2] at hbc; cases hbc
        · rw [if_neg (Nat.lt_asymm h1), if_pos h1] at hab; cases hab

theorem strlt_irrefl (a : List Nat) : ¬ strlt a a := by
  intro h
  have := strcmp_self a
  rw [strlt] at h
  rw [h] at this
  cases this

-- ====================================================================
-- Binary search correctness (check_domain against table membership)
-- ====================================================================

theorem bsearch_loop_iff (key : List Nat) (l : List (List Nat))
    (hsort : l.Pairwise strlt) :
    ∀ fuel num base, num ≤ fuel → base + num ≤ l.length →
      (bsearch_loop key l base num fuel = true ↔
        ∃ i, base ≤ i ∧ i < base + num ∧ l.getD i [] = key) := by
  have hget : ∀ i j (hi : i < l.length) (hj : j < l.length), i < j →
      strlt (l.get ⟨i, hi⟩) (l.get ⟨j, hj⟩) := by
    intro i j hi hj hij
    exact List.pairwise_iff_get.mp hsort ⟨i, hi⟩ ⟨j, hj⟩ hij
  intro fuel
  induction fuel with
  | zero =>
    intro num base hnf _
    have : num = 0 := Nat.le_zero.mp hnf
    subst this
    simp [bsearch_loop]
    omega
  | succ fuel ih =>
    intro num base hnf hbn
    by_cases h0 : num = 0
    · subst h0
      simp [bsearch_loop]
      omega
    · have hmidlt : num / 2 < num := Nat.div_lt_self (Nat.pos_of_ne_zero h0) (by omega)
      have hidx : base + num / 2 < l.length := by omega
      have hgetD : l.getD (base + num / 2) [] = l.get ⟨base + num / 2, hidx⟩ := by
        rw [List.getD_eq_getElem?_getD, List.getElem?_eq_getElem hidx]
        rfl
      simp only [bsearch_loop, if_neg h0]
      rcases hcmp : strcmp key (l.getD (base + num / 2) []) with _ | _ | _
      · -- key < probe: search the left half
        rw [ih (num / 2) base (by omega) (by omega)]
        constructor
        · rintro ⟨i, h1, h2, h3⟩
          exact ⟨i, h1, by omega, h3⟩
        · rintro ⟨i, h1, h2, h3⟩
          refine ⟨i, h1, ?_, h3⟩
          by_contra hge
          have hile : base + num / 2 ≤ i := by omega
          have hi : i < l.length := by omega
          rcases Nat.eq_or_lt_of_le hile with heq | hlt
        -- i is the probe or to its right; both contradict key < probe
          · rw [← heq] at h3
            rw [h3] at hcmp
            rw [strcmp_self] at hcmp
            simp at hcmp
          · have hpl : strlt (l.get ⟨base + num / 2, hidx⟩) (l.get ⟨i, hi⟩) :=
              hget _ _ _ _ hlt
            have h3' : l.get ⟨i, hi⟩ = key := by
              rw [← h3, List.getD_eq_getElem?_getD, List.getElem?_eq_getElem hi]
              rfl
            rw [h3'] at hpl
            rw [hgetD] at hcmp
            have : strlt key key := strlt_trans _ _ _ hcmp hpl
            exact strlt_irrefl key this
      · -- key = probe
        have : key = l.getD (base + num / 2) [] := (strcmp_eq_iff _ _).mp hcmp
        constructor
        · intro _
          exact ⟨base + num / 2, by omega, by omega, this.symm⟩
        · intro _; rfl
      · -- key > probe: search the right half
        rw [ih (num - num / 2 - 1) (base + num / 2 + 1) (by omega) (by omega)]
        constructor
        · rintro ⟨i, h1, h2, h3⟩
          exact ⟨i, by omega, by omega, h3⟩
        · rintro ⟨i, h1, h2, h3⟩
          refine ⟨i, ?_, by omega, h3⟩
          by_contra hge
          have hile : i ≤ base + num / 2 := by omega
          have hi : i < l.length := by omega
          have hlt' : strlt key (l.getD (base + num / 2) []) := by
            rcases Nat.eq_or_lt_of_le hile with heq | hlt
            · exfalso
              rw [heq] at h3
              rw [h3] at hcmp
              rw [strcmp_self] at hcmp
              simp at hcmp
            · have hpl : strlt (l.get ⟨i, hi⟩) (l.get ⟨base + num / 2, hidx⟩) :=
                hget _ _ _ _ hlt
              have h3' : l.get ⟨i, hi⟩ = key := by
                rw [← h3, List.getD_eq_getElem?_getD, List.getElem?_eq_getElem hi]
                rfl
              rw [h3', ← hgetD] at hpl
              exact hpl
          have hgt : strcmp (l.getD (base + num / 2) []) key = .lt :=
            (strcmp_gt_iff _ _).mp hcmp
          have : strlt key key := strlt_trans _ _ _ hlt' hgt
          exact strlt_irrefl key this

theorem check_domain_iff (bl : List (List Nat)) (hsort : bl.Pairwise strlt)
    (d : List Nat) : check_domain bl d = true ↔ d ∈ bl := by
  unfold check_domain
  by_cases hbl : bl.isEmpty
  · rw [if_pos hbl]
    rw [List.isEmpty_iff] at hbl
    subst hbl
    simp
  · rw [if_neg hbl]
    rw [bsearch_loop_iff d bl hsort bl.length bl.length 0 (Nat.le_refl _) (by omega)]
    constructor
    · rintro ⟨i, _, h2, h3⟩
      have hi : i < bl.length := by omega
      rw [List.getD_eq_getElem?_getD, List.getElem?_eq_getElem hi] at h3
      exact h3 ▸ List.getElem_mem hi
    · intro hmem
      rcases List.mem_iff_getElem.mp hmem with ⟨i, hi, hig⟩
      refine ⟨i, by omega, by omega, ?_⟩
      rw [List.getD_eq_getElem?_getD, List.getElem?_eq_getElem hi]
      exact hig

-- ====================================================================
-- The parent-domain walk of is_blocked
-- ====================================================================

theorem dropThroughDot_length : ∀ p rest : List Nat,
    dropThroughDot p = some rest → rest.length < p.length := by
  intro p
  induction p with
  | nil => intro rest h; cases h
  | cons c cs ih =>
    intro rest h
    by_cases hc : c = 46
    · rw [dropThroughDot, if_pos hc] at h
      injection h with h
      subst h
      simp
    · rw [dropThroughDot, if_neg hc] at h
      have := ih rest h
      simp
      omega

theorem dotSuffixes_of_drop : ∀ p rest : List Nat,
    dropThroughDot p = some rest → dotSuffixes p = rest :: dotSuffixes rest := by
  intro p
  induction p with
  | nil => intro rest h; cases h
  | cons c cs ih =>
    intro rest h
    by_cases hc : c = 46
    · rw [dropThroughDot, if_pos hc] at h
      injection h with h
      subst h
      rw [dotSuffixes, if_pos hc]
    · rw [dropThroughDot, if_neg hc] at h
      rw [dotSuffixes, if_neg hc]
      exact ih rest h

theorem dotSuffixes_of_none : ∀ p : List Nat,
    dropThroughDot p = none → dotSuffixes p = [] := by
  intro p
  induction p with
  | nil => intro _; rfl
  | cons c cs ih =>
    intro h
    by_cases hc : c = 46
    · rw [dropThroughDot, if_pos hc] at h
      cases h
    · rw [dropThroughDot, if_neg hc] at h
      rw [dotSuffixes, if_neg hc]
      exact ih h

theorem walkParents_iff (bl : List (List Nat)) : ∀ fuel p, p.length ≤ fuel →
    (walkParents bl fuel p = true ↔
      ∃ q, (q = p ∨ q ∈ dotSuffixes p) ∧ (dropThroughDot q).isSome ∧
        check_domain bl q = true) := by
  intro fuel
  induction fuel with
  | zero =>
    intro p hlen
    have hp : p = [] := List.length_eq_zero.mp (Nat.le_zero.mp hlen)
    subst hp
    simp only [walkParents, dotSuffixes]
    constructor
    · intro h; cases h
    · rintro ⟨q, hq, hsome, _⟩
      rcases hq with rfl | hq
      · rw [dropThroughDot] at hsome; cases hsome
      · cases hq
  | succ fuel ih =>
    intro p hlen
    rcases hdrop : dropThroughDot p with _ | rest
    · -- no dot in p: the walk breaks before testing anything
      have hw : walkParents bl (fuel + 1) p = false := by
        rw [walkParents, hdrop]
      rw [hw]
      constructor
      · intro h; cases h
      · rintro ⟨q, hq, hsome, _⟩
        rcases hq with rfl | hq
        · rw [hdrop] at hsome; cases hsome
        · rw [dotSuffixes_of_none p hdrop] at hq; cases hq
    · have hw : walkParents bl (fuel + 1) p =
          if check_domain bl p = true then true else walkParents bl fuel rest := by
        rw [walkParents, hdrop]
      rw [hw]
      have hsuf : dotSuffixes p = rest :: dotSuffixes rest :=
        dotSuffixes_of_drop p rest hdrop
      by_cases hchk : check_domain bl p = true
      · rw [if_pos hchk]
        constructor
        · intro _
          exact ⟨p, Or.inl rfl, by rw [hdrop]; rfl, hchk⟩
        · intro _; rfl
      · rw [if_neg hchk]
        have hrest : rest.length ≤ fuel := by
          have := dropThroughDot_length p rest hdrop
          omega
        rw [ih rest hrest]
        constructor
        · rintro ⟨q, hq, hsome, hc⟩
          refine ⟨q, ?_, hsome, hc⟩
          rw [hsuf]
          rcases hq with rfl | hq
          · exact Or.inr (List.mem_cons_self _ _)
          · exact Or.inr (List.mem_cons_of_mem _ hq)
        · rintro ⟨q, hq, hsome, hc⟩
          rw [hsuf] at hq
          rcases hq with rfl | hq
          · exact absurd hc hchk
          · rcases List.mem_cons.mp hq with rfl | hq
            · exact ⟨q, Or.inl rfl, hsome, hc⟩
            · exact ⟨q, Or.inr hq, hsome, hc⟩

theorem walkParents_nil : ∀ fuel p, walkParents [] fuel p = false := by
  intro fuel
  induction fuel with
  | zero => intro p; rfl
  | succ fuel ih =>
    intro p
    rw [walkParents]
    rcases dropThroughDot p with _ | rest
    · rfl
    · have hchk : check_domain [] p = false := rfl
      rw [hchk]
      simp only [Bool.false_eq_true, if_false]
      exact ih rest

theorem is_blocked_iff (bl : List (List Nat)) (hsort : bl.Pairwise strlt)
    (host : List Nat) :
    is_blocked bl host = true ↔
      host ∈ bl ∨ ∃ p ∈ strictParents host, p ∈ bl := by
  unfold is_blocked
  by_cases hchk : check_domain bl host = true
  · rw [if_pos hchk]
    have := (check_domain_iff bl hsort host).mp hchk
    constructor
    · intro _; exact Or.inl this
    · intro _; rfl
  · rw [if_neg hchk]
    have hnmem : host ∉ bl := fun hmem => hchk ((check_domain_iff bl hsort host).mpr hmem)
    rcases hdrop : dropThroughDot host with _ | p0
    · constructor
      · intro h; cases h
      · rintro (hmem | ⟨p, hp, hpmem⟩)
        · exact absurd hmem hnmem
        · rw [strictParents, dotSuffixes_of_none host hdrop] at hp
          cases hp
    · rw [walkParents_iff bl p0.length p0 (Nat.le_refl _)]
      have hsuf : dotSuffixes host = p0 :: dotSuffixes p0 :=
        dotSuffixes_of_drop host p0 hdrop
      constructor
      · rintro ⟨q, hq, hsome, hc⟩
        refine Or.inr ⟨q, ?_, (check_domain_iff bl hsort q).mp hc⟩
        rw [strictParents, hsuf]
        apply List.mem_filter.mpr
        refine ⟨?_, by simpa using hsome⟩
        rcases hq with rfl | hq
        · exact List.mem_cons_self _ _
        · exact List.mem_cons_of_mem _ hq
      · rintro (hmem | ⟨p, hp, hpmem⟩)
        · exact absurd hmem hnmem
        · rw [strictParents, hsuf] at hp
          rcases List.mem_filter.mp hp with ⟨hpmem', hpsome⟩
          refine ⟨p, ?_, by simpa using hpsome, (check_domain_iff bl hsort p).mpr hpmem⟩
          rcases List.mem_cons.mp hpmem' with rfl | hq
          · exact Or.inl rfl
          · exact Or.inr hq

theorem is_blocked_nil (host : List Nat) : is_blocked [] host = false := by
  unfold is_blocked
  have hchk : check_domain [] host = false := rfl
  rw [hchk]
  simp only [Bool.false_eq_true, if_false]
  rcases dropThroughDot host with _ | p0
  · rfl
  · exact walkParents_nil p0.length p0

/-- **C4.** `is_blocked(host)` is true iff `host` exactly matches a table
entry, or some parent obtained by repeatedly stripping the leftmost label
matches, where a parent with no remaining dot is never tested (for any
sorted table); in particular for the table
`{"ads.example.com", "example.org"}`: `tracker.ads.example.com` is blocked,
`example.com` is not, `example.org` is, `notexample.org` is not; and with an
empty table every host is unblocked. -/
theorem is_blocked_spec :
    (∀ (bl : List (List Nat)) (host : List Nat), bl.Pairwise strlt →
      (is_blocked bl host = true ↔
        host ∈ bl ∨ ∃ p ∈ strictParents host, p ∈ bl)) ∧
    is_blocked exTable (strBytes "tracker.ads.example.com") = true ∧
    is_blocked exTable (strBytes "example.com") = false ∧
    is_blocked exTable (strBytes "example.org") = true ∧
    is_blocked exTable (strBytes "notexample.org") = false ∧
    ∀ host, is_blocked [] host = false :=
  ⟨fun bl host hsort => is_blocked_iff bl hsort host,
    by decide, by decide, by decide, by decide, is_blocked_nil⟩

/-- Closed instance of `is_blocked_spec`: its general clause applied to the
concrete sorted table, with the sortedness hypothesis discharged. -/
theorem is_blocked_spec_witness :
    is_blocked exTable (strBytes "x.y.ads.example.com") = true :=
  (is_blocked_spec.1 exTable (strBytes "x.y.ads.example.com") (by decide)).mpr
    (Or.inr ⟨strBytes "ads.example.com", by decide, by decide⟩)

-- ====================================================================
-- Decoder loop invariants
-- ====================================================================

theorem readNameLoop_iters_le (buf : List Nat) :
    ∀ fuel s, (readNameLoop buf s fuel).iters ≤ fuel := by
  intro fuel
  induction fuel with
  | zero => intro s; simp [readNameLoop]
  | succ fuel ih =>
    intro s
    rw [readNameLoop]
    by_cases h1 : buf.getD s.pos 0 = 0 ∨ DNS_NAME_SIZE ≤ s.count
    · rw [if_pos h1]
      exact Nat.zero_le _
    · rw [if_neg h1]
      by_cases h2 : buf.getD s.pos 0 &&& JUMP_HEX_VALUE = JUMP_HEX_VALUE
      · simp only [if_pos h2]
        have := ih ⟨((buf.getD s.pos 0 &&& FIRST_OFFSET_HEX_VALUE) <<< 8) ||| buf.getD (s.pos + 1) 0,
          if s.jumped then s.count else s.count + 2, s.nameOff, true, s.name⟩
        omega
      · simp only [if_neg h2]
        by_cases h3 : DNS_NAME_SIZE ≤ s.nameOff + buf.getD s.pos 0 + 1
        · simp only [if_pos h3]
          omega
        · simp only [if_neg h3]
          have := ih ⟨s.pos + buf.getD s.pos 0 + 1,
            (if s.jumped then s.count else s.count + buf.getD s.pos 0 + 1),
            s.nameOff + buf.getD s.pos 0 + 1, s.jumped,
            (memcpyName s.name s.nameOff buf (s.pos + 1) (buf.getD s.pos 0)).set
              (s.nameOff + buf.getD s.pos 0) 46⟩
          omega

theorem readNameLoop_jumped_frozen (buf : List Nat) :
    ∀ fuel s, s.jumped = true → ∀ s', (readNameLoop buf s fuel).res = some s' →
      s'.count = s.count ∧ s'.jumped = true := by
  intro fuel
  induction fuel with
  | zero =>
    intro s hj s' hres
    simp only [readNameLoop] at hres
    injection hres with h
    subst h
    exact ⟨rfl, hj⟩
  | succ fuel ih =>
    intro s hj s' hres
    rw [readNameLoop] at hres
    by_cases h1 : buf.getD s.pos 0 = 0 ∨ DNS_NAME_SIZE ≤ s.count
    · rw [if_pos h1] at hres
      injection hres with h
      subst h
      exact ⟨rfl, hj⟩
    · rw [if_neg h1] at hres
      by_cases h2 : buf.getD s.pos 0 &&& JUMP_HEX_VALUE = JUMP_HEX_VALUE
      · simp only [if_pos h2, hj, if_true] at hres
        exact ih ⟨(buf.getD s.pos 0 &&& FIRST_OFFSET_HEX_VALUE) <<< 8 ||| buf.getD (s.pos + 1) 0,
          s.count, s.nameOff, true, s.name⟩ rfl s' hres
      · simp only [if_neg h2] at hres
        by_cases h3 : DNS_NAME_SIZE ≤ s.nameOff + buf.getD s.pos 0 + 1
        · simp only [if_pos h3] at hres
          cases hres
        · simp only [if_neg h3, hj, if_true] at hres
          exact ih ⟨s.pos + buf.getD s.pos 0 + 1, s.count,
            s.nameOff + buf.getD s.pos 0 + 1, true,
            (memcpyName s.name s.nameOff buf (s.pos + 1) (buf.getD s.pos 0)).set
              (s.nameOff + buf.getD s.pos 0) 46⟩ rfl s' hres

theorem readNameLoop_writes_lt (buf : List Nat) :
    ∀ fuel s, s.nameOff + 1 ≤ DNS_NAME_SIZE →
      (∀ w ∈ (readNameLoop buf s fuel).writes, w < DNS_NAME_SIZE) ∧
      (∀ s', (readNameLoop buf s fuel).res = some s' →
        s'.nameOff + 1 ≤ DNS_NAME_SIZE) := by
  intro fuel
  induction fuel with
  | zero =>
    intro s hoff
    refine ⟨?_, ?_⟩
    · intro w hw
      simp [readNameLoop] at hw
    · intro s' hres
      simp only [readNameLoop] at hres
      injection hres with h
      subst h
      exact hoff
  | succ fuel ih =>
    intro s hoff
    rw [readNameLoop]
    by_cases h1 : buf.getD s.pos 0 = 0 ∨ DNS_NAME_SIZE ≤ s.count
    · rw [if_pos h1]
      refine ⟨?_, ?_⟩
      · intro w hw
        simp at hw
      · intro s' hres
        injection hres with h
        subst h
        exact hoff
    · rw [if_neg h1]
      by_cases h2 : buf.getD s.pos 0 &&& JUMP_HEX_VALUE = JUMP_HEX_VALUE
      · simp only [if_pos h2]
        exact ih ⟨((buf.getD s.pos 0 &&& FIRST_OFFSET_HEX_VALUE) <<< 8) ||| buf.getD (s.pos + 1) 0,
          if s.jumped then s.count else s.count + 2, s.nameOff, true, s.name⟩ hoff
      · simp only [if_neg h2]
        by_cases h3 : DNS_NAME_SIZE ≤ s.nameOff + buf.getD s.pos 0 + 1
        · simp only [if_pos h3]
          refine ⟨?_, ?_⟩
          · intro w hw
            simp at hw
          · intro s' hres
            cases hres
        · simp only [if_neg h3]
          have hrec := ih ⟨s.pos + buf.getD s.pos 0 + 1,
            (if s.jumped then s.count else s.count + buf.getD s.pos 0 + 1),
            s.nameOff + buf.getD s.pos 0 + 1, s.jumped,
            (memcpyName s.name s.nameOff buf (s.pos + 1) (buf.getD s.pos 0)).set
              (s.nameOff + buf.getD s.pos 0) 46⟩ (by simp only; omega)
          refine ⟨?_, hrec.2⟩
          intro w hw
          simp only [List.mem_append, List.mem_cons, List.mem_map, List.mem_range] at hw
          rcases hw with ⟨i, hi, rfl⟩ | rfl | hw
          · omega
          · omega
          · exact hrec.1 w hw

theorem read_name_eq_none (buf : List Nat) (start : Nat)
    (h : (readNameLoop buf ⟨start, 0, 0, false, List.replicate DNS_NAME_SIZE 0⟩
      MAX_LOOP_COUNT).res = none) :
    read_name buf start = none := by
  unfold read_name read_name_instr
  simp only [h]

theorem read_name_eq_some (buf : List Nat) (start : Nat) (s : LoopSt)
    (h : (readNameLoop buf ⟨start, 0, 0, false, List.replicate DNS_NAME_SIZE 0⟩
      MAX_LOOP_COUNT).res = some s) :
    read_name buf start =
      some (cString (s.name.set (if 0 < s.nameOff then s.nameOff - 1 else 0) 0),
        if s.jumped then s.count else s.count + 1) := by
  unfold read_name read_name_instr
  simp only [h]

theorem readNameLoop_jump_step (buf : List Nat) (s : LoopSt) (fuel : Nat)
    (h1 : ¬(buf.getD s.pos 0 = 0 ∨ DNS_NAME_SIZE ≤ s.count))
    (h2 : buf.getD s.pos 0 &&& JUMP_HEX_VALUE = JUMP_HEX_VALUE) :
    (readNameLoop buf s (fuel + 1)).res =
      (readNameLoop buf
        ⟨((buf.getD s.pos 0 &&& FIRST_OFFSET_HEX_VALUE) <<< 8) ||| buf.getD (s.pos + 1) 0,
          if s.jumped then s.count else s.count + 2, s.nameOff, true, s.name⟩ fuel).res := by
  rw [readNameLoop, if_neg h1]
  simp only [if_pos h2]

-- ====================================================================
-- Claim theorems about the decoder loop (C2, C5, C6)
-- ====================================================================

/-- **C2, counterexample.** On the packet whose question name is a
compression pointer pointing at itself, `read_name` does not return a
decode failure: it stops after the loop bound and returns the empty
partial name (with consumed count 2). -/
theorem read_name_cycle_returns_partial : read_name cyclePkt 12 = some ([], 2) := by
  decide

/-- **C2 (amended).** For every input packet, `read_name`'s loop executes at
most `MAX_LOOP_COUNT` label/pointer steps; and on a packet whose pointer
chain cycles (the self-pointer packet), it stops within that bound and
returns the partially assembled name — the empty name with count 2 — rather
than a decode failure or an infinite loop. -/
theorem read_name_step_bound :
    (∀ buf start, (read_name_instr buf start).iters ≤ MAX_LOOP_COUNT) ∧
    read_name cyclePkt 12 = some ([], 2) := by
  constructor
  · intro buf start
    have hle := readNameLoop_iters_le buf MAX_LOOP_COUNT
      ⟨start, 0, 0, false, List.replicate DNS_NAME_SIZE 0⟩
    unfold read_name_instr
    rcases hres : (readNameLoop buf ⟨start, 0, 0, false, List.replicate DNS_NAME_SIZE 0⟩
      MAX_LOOP_COUNT).res with _ | s
    · simp only [hres]
      exact hle
    · simp only [hres]
      exact hle
  · decide

/-- **C5.** If a label's declared length would make the assembled name
overrun the 256-byte name buffer (`name_offset + segment_len + 1 ≥
DNS_NAME_SIZE`), `read_name` returns a decode failure, and on every input
every name-buffer index it writes is inside the buffer (`< DNS_NAME_SIZE`);
concretely, the packet with labels of lengths 191 and 63 fails. -/
theorem read_name_name_buffer_safe :
    (∀ buf start, ∀ w ∈ (read_name_instr buf start).writes, w < DNS_NAME_SIZE) ∧
    (∀ (buf : List Nat) (s : LoopSt) (fuel : Nat),
      ¬(buf.getD s.pos 0 = 0 ∨ DNS_NAME_SIZE ≤ s.count) →
      ¬(buf.getD s.pos 0 &&& JUMP_HEX_VALUE = JUMP_HEX_VALUE) →
      DNS_NAME_SIZE ≤ s.nameOff + buf.getD s.pos 0 + 1 →
      (readNameLoop buf s (fuel + 1)).res = none) ∧
    read_name overrunPkt 12 = none := by
  refine ⟨?_, ?_, by decide⟩
  · intro buf start w hw
    have hinv := readNameLoop_writes_lt buf MAX_LOOP_COUNT
      ⟨start, 0, 0, false, List.replicate DNS_NAME_SIZE 0⟩ (by simp [DNS_NAME_SIZE])
    unfold read_name_instr at hw
    rcases hres : (readNameLoop buf ⟨start, 0, 0, false, List.replicate DNS_NAME_SIZE 0⟩
      MAX_LOOP_COUNT).res with _ | s
    · simp only [hres] at hw
      exact hinv.1 w hw
    · simp only [hres] at hw
      rcases List.mem_append.mp hw with hw | hw
      · exact hinv.1 w hw
      · have hoff : s.nameOff + 1 ≤ DNS_NAME_SIZE := hinv.2 s hres
        rcases List.mem_singleton.mp hw with rfl
        by_cases h0 : 0 < s.nameOff
        · rw [if_pos h0]
          omega
        · rw [if_neg h0]
          simp [DNS_NAME_SIZE]
  · intro buf s fuel h1 h2 h3
    rw [readNameLoop, if_neg h1]
    simp only [if_neg h2, if_pos h3]

/-- Closed instance of `read_name_name_buffer_safe`: its overrun clause
applied at a concrete loop state whose next label (length 5 at offset 0)
would overflow the name buffer from `name_offset = 250`. -/
theorem read_name_name_buffer_safe_witness :
    (readNameLoop [5] ⟨0, 0, 250, false, List.replicate 256 0⟩ 1).res = none :=
  read_name_name_buffer_safe.2.1 [5] ⟨0, 0, 250, false, List.replicate 256 0⟩ 0
    (by decide) (by decide) (by decide)

/-- **C6.** On a compression pointer, `read_name` continues at the offset
given by the low 14 bits of the two pointer bytes
(`((b & 0x3F) << 8) | next`), measured from the start of the original
buffer; once jumped, the consumed-byte count never increases further; and
when a pointer is the first thing encountered, the returned consumed-byte
count is exactly 2. -/
theorem read_name_pointer_semantics :
    (∀ (buf : List Nat) (s : LoopSt) (fuel : Nat),
      ¬(buf.getD s.pos 0 = 0 ∨ DNS_NAME_SIZE ≤ s.count) →
      buf.getD s.pos 0 &&& JUMP_HEX_VALUE = JUMP_HEX_VALUE →
      (readNameLoop buf s (fuel + 1)).res =
        (readNameLoop buf
          ⟨((buf.getD s.pos 0 &&& FIRST_OFFSET_HEX_VALUE) <<< 8) ||| buf.getD (s.pos + 1) 0,
            if s.jumped then s.count else s.count + 2, s.nameOff, true, s.name⟩ fuel).res) ∧
    (∀ (buf : List Nat) (fuel : Nat) (s : LoopSt), s.jumped = true →
      ∀ s', (readNameLoop buf s fuel).res = some s' →
        s'.count = s.count ∧ s'.jumped = true) ∧
    (∀ (buf : List Nat) (start : Nat) (nm : List Nat) (c : Nat),
      buf.getD start 0 &&& JUMP_HEX_VALUE = JUMP_HEX_VALUE →
      read_name buf start = some (nm, c) → c = 2) := by
  refine ⟨fun buf s fuel h1 h2 => readNameLoop_jump_step buf s fuel h1 h2,
    fun buf fuel => readNameLoop_jumped_frozen buf fuel, ?_⟩
  intro buf start nm c hptr hres
  have hb0 : buf.getD start 0 ≠ 0 := by
    intro h0
    rw [h0] at hptr
    exact absurd hptr (by decide)
  have hcond : ¬(buf.getD start 0 = 0 ∨ DNS_NAME_SIZE ≤ (0 : Nat)) := by
    push_neg
    exact ⟨hb0, by decide⟩
  have hstep :
      (readNameLoop buf ⟨start, 0, 0, false, List.replicate DNS_NAME_SIZE 0⟩
        MAX_LOOP_COUNT).res =
      (readNameLoop buf
        ⟨((buf.getD start 0 &&& FIRST_OFFSET_HEX_VALUE) <<< 8) ||| buf.getD (start + 1) 0,
          2, 0, true, List.replicate DNS_NAME_SIZE 0⟩ 99).res := by
    exact readNameLoop_jump_step buf
      ⟨start, 0, 0, false, List.replicate DNS_NAME_SIZE 0⟩ 99 hcond hptr
  rcases hloop : (readNameLoop buf
      ⟨((buf.getD start 0 &&& FIRST_OFFSET_HEX_VALUE) <<< 8) ||| buf.getD (start + 1) 0,
        2, 0, true, List.replicate DNS_NAME_SIZE 0⟩ 99).res with _ | s'
  · have hnone := read_name_eq_none buf start (by rw [hstep, hloop])
    rw [hres] at hnone
    cases hnone
  · have hsome := read_name_eq_some buf start s' (by rw [hstep, hloop])
    rw [hres] at hsome
    have hfroz := readNameLoop_jumped_frozen buf 99
      ⟨((buf.getD start 0 &&& FIRST_OFFSET_HEX_VALUE) <<< 8) ||| buf.getD (start + 1) 0,
        2, 0, true, List.replicate DNS_NAME_SIZE 0⟩ rfl s' hloop
    injection hsome with hsome
    have hc : c = (if s'.jumped then s'.count else s'.count + 1) :=
      congrArg Prod.snd hsome
    rw [hfroz.2] at hc
    simp only [if_true] at hc
    rw [hc, hfroz.1]

-- ====================================================================
-- Byte arithmetic of the in-place REFUSED header mutation
-- ====================================================================

theorem lor_byte_split (a b c d : Nat) (hb : b < 256) (hd : d < 256) :
    (a * 256 + b) ||| (c * 256 + d) = (a ||| c) * 256 + (b ||| d) := by
  have h8 : (256 : Nat) = 2 ^ 8 := by norm_num
  have e1 : a * 256 + b = 2 ^ 8 * a + b := by rw [← h8, Nat.mul_comm]
  have e2 : c * 256 + d = 2 ^ 8 * c + d := by rw [← h8, Nat.mul_comm]
  have e3 : (a ||| c) * 256 + (b ||| d) = 2 ^ 8 * (a ||| c) + (b ||| d) := by
    rw [← h8, Nat.mul_comm]
  rw [e1, e2, e3]
  apply Nat.eq_of_testBit_eq
  intro i
  have hbd : b ||| d < 2 ^ 8 := Nat.or_lt_two_pow (h8 ▸ hb) (h8 ▸ hd)
  rw [Nat.testBit_or, Nat.testBit_mul_pow_two_add a (h8 ▸ hb) i,
    Nat.testBit_mul_pow_two_add c (h8 ▸ hd) i,
    Nat.testBit_mul_pow_two_add (a ||| c) hbd i]
  by_cases hi : i < 8
  · simp [hi, Nat.testBit_or]
  · simp [hi, Nat.testBit_or]

theorem byte_or128_and (x : Nat) (h : x < 256) : (x ||| 128) &&& 128 = 128 := by
  have hall : ∀ y < 256, (y ||| 128) &&& 128 = 128 := by decide
  exact hall x h

theorem byte_or5_and15 (x : Nat) (h : x < 256) : (x ||| 5) &&& 15 = (x &&& 15) ||| 5 := by
  have hall : ∀ y < 256, (y ||| 5) &&& 15 = (y &&& 15) ||| 5 := by decide
  exact hall x h

theorem refuse_flags_split (b2 b3 : Nat) (h2 : b2 < 256) (h3 : b3 < 256) :
    (b2 * 256 + b3 ||| DNS_FLAG_QR ||| 5) % 65536 = (b2 ||| 128) * 256 + (b3 ||| 5) := by
  have hQR : DNS_FLAG_QR = 128 * 256 + 0 := by norm_num [DNS_FLAG_QR]
  have h5 : (5 : Nat) = 0 * 256 + 5 := by norm_num
  have step1 : (b2 * 256 + b3) ||| DNS_FLAG_QR = (b2 ||| 128) * 256 + b3 := by
    rw [hQR, lor_byte_split b2 b3 128 0 h3 (by norm_num)]
    simp
  have step2 : ((b2 ||| 128) * 256 + b3) ||| 5 = (b2 ||| 128) * 256 + (b3 ||| 5) := by
    conv_lhs => rw [h5]
    rw [lor_byte_split (b2 ||| 128) b3 0 5 h3 (by norm_num)]
    simp
  rw [step1, step2]
  apply Nat.mod_eq_of_lt
  have hb2' : b2 ||| 128 < 256 := Nat.or_lt_two_pow (x := b2) (n := 8) (by norm_num; omega) (by norm_num)
  have hb3' : b3 ||| 5 < 256 := Nat.or_lt_two_pow (x := b3) (n := 8) (by norm_num; omega) (by norm_num)
  nlinarith

theorem getD_lt_of_all (buf : List Nat) (i : Nat) (hi : i < buf.length)
    (hb : ∀ b ∈ buf, b < 256) : buf.getD i 0 < 256 := by
  rw [List.getD_eq_getElem?_getD, List.getElem?_eq_getElem hi]
  exact hb _ (List.getElem_mem hi)

theorem refuse_length (buf : List Nat) : (refuse buf).length = buf.length := by
  unfold refuse
  simp

theorem refuse_getD_ne (buf : List Nat) (i : Nat) (h2 : i ≠ 2) (h3 : i ≠ 3) :
    (refuse buf).getD i 0 = buf.getD i 0 := by
  unfold refuse
  simp only [List.getD_eq_getElem?_getD]
  rw [List.getElem?_set_ne (by omega), List.getElem?_set_ne (by omega)]

theorem refuse_getD_flags (buf : List Nat) (hlen : 3 < buf.length)
    (hb : ∀ b ∈ buf, b < 256) :
    (refuse buf).getD 2 0 = buf.getD 2 0 ||| 128 ∧
    (refuse buf).getD 3 0 = buf.getD 3 0 ||| 5 := by
  have hb2 : buf.getD 2 0 < 256 := getD_lt_of_all buf 2 (by omega) hb
  have hb3 : buf.getD 3 0 < 256 := getD_lt_of_all buf 3 (by omega) hb
  simp only [List.getD_eq_getElem?_getD] at hb2 hb3 ⊢
  have hb3' : buf[3]?.getD 0 ||| 5 < 256 :=
    Nat.or_lt_two_pow (x := buf[3]?.getD 0) (n := 8) (by norm_num; omega) (by norm_num)
  unfold refuse
  simp only [List.getD_eq_getElem?_getD]
  constructor
  · rw [List.getElem?_set_ne (by omega), List.getElem?_set_self (by omega)]
    simp only [Option.getD_some]
    rw [refuse_flags_split (buf[2]?.getD 0) (buf[3]?.getD 0) hb2 hb3]
    rw [Nat.mul_comm, Nat.mul_add_div (by norm_num), Nat.div_eq_of_lt hb3', Nat.add_zero]
  · rw [List.getElem?_set_self (by simp only [List.length_set]; omega)]
    simp only [Option.getD_some]
    rw [refuse_flags_split (buf[2]?.getD 0) (buf[3]?.getD 0) hb2 hb3]
    rw [Nat.mul_comm, Nat.mul_add_mod, Nat.mod_eq_of_lt hb3']

theorem mainStep_blocked (bl : List (List Nat)) (buf : List Nat) (qsize : Nat)
    (up : Option (List Nat)) (nm : List Nat) (c : Nat)
    (hq : ¬ qsize < 12)
    (hname : read_name buf 12 = some (nm, c))
    (hblk : is_blocked bl (nm.map toLowerByte) = true) :
    mainStep bl buf qsize up = ⟨true, some ((refuse buf).take qsize), none⟩ := by
  unfold mainStep
  rw [if_neg hq]
  simp only [hname, hblk, if_true]

-- ====================================================================
-- Claim theorems about dispatch, response synthesis, and the timed wait
-- ====================================================================

/-- **C1** (the code evaluated at a failing input).  On a packet whose
question name fails to decode (`read_name` returns the failure `none`),
main.c's dispatch loop drops the datagram — decoder invoked, no reply, no
forward — but dns.c's `handle_dns_request` dereferences the `NULL` decoder
result without a check (undefined behaviour, modelled as `crash`). -/
theorem decode_failure_crashes_handler :
    read_name overrunPkt 12 = none ∧
    handle_dns_request [] overrunPkt 216 none = .crash ∧
    mainStep [] overrunPkt 216 none = ⟨true, none, none⟩ := by
  exact ⟨by decide, by decide, by decide⟩

/-- **C3, counterexample.**  A blocked query whose original header already
has RCODE bits set (byte 3 = 0x02) gets a reply whose RCODE is
`2 | 5 = 7`, not 5: the code ORs 0x0005 into the flags instead of setting
the RCODE field. -/
theorem refused_rcode_counterexample :
    (mainStep aTable rcode2Pkt 15 none).reply =
      some [0, 0, 128, 7, 0, 0, 0, 0, 0, 0, 0, 0, 1, 97, 0] ∧
    ((mainStep aTable rcode2Pkt 15 none).reply.getD []).getD 3 0 &&& 15 = 7 := by
  exact ⟨by decide, by decide⟩

/-- **C3 (amended).**  For every query classified as blocked, the
synthesized reply has the QR bit set, RCODE equal to the query's RCODE
OR-ed with 5 (hence 5 exactly when the query's RCODE was 0), and is
byte-identical to the received query in transaction ID, question count,
question section and total length; only the two header flag bytes are
mutated (byte 2 becomes `b2 | 0x80`, byte 3 becomes `b3 | 0x05`). -/
theorem refused_reply_preserves_query :
    ∀ (bl : List (List Nat)) (buf : List Nat) (qsize : Nat)
      (up : Option (List Nat)) (nm : List Nat) (c : Nat),
      12 ≤ qsize → qsize ≤ buf.length →
      (∀ b ∈ buf, b < 256) →
      read_name buf 12 = some (nm, c) →
      is_blocked bl (nm.map toLowerByte) = true →
      ∃ r, (mainStep bl buf qsize up).reply = some r ∧
        (mainStep bl buf qsize up).forwarded = none ∧
        r.length = qsize ∧
        r.getD 2 0 &&& 128 = 128 ∧
        r.getD 3 0 &&& 15 = (buf.getD 3 0 &&& 15) ||| 5 ∧
        r.getD 2 0 = buf.getD 2 0 ||| 128 ∧
        r.getD 3 0 = buf.getD 3 0 ||| 5 ∧
        ∀ i, i ≠ 2 → i ≠ 3 → r.getD i 0 = (buf.take qsize).getD i 0 := by
  intro bl buf qsize up nm c hq hqlen hb hname hblk
  rw [mainStep_blocked bl buf qsize up nm c (by omega) hname hblk]
  have hflags := refuse_getD_flags buf (by omega) hb
  have hg2 : ((refuse buf).take qsize).getD 2 0 = (refuse buf).getD 2 0 := by
    simp only [List.getD_eq_getElem?_getD]
    rw [List.getElem?_take_of_lt (by omega)]
  have hg3 : ((refuse buf).take qsize).getD 3 0 = (refuse buf).getD 3 0 := by
    simp only [List.getD_eq_getElem?_getD]
    rw [List.getElem?_take_of_lt (by omega)]
  refine ⟨(refuse buf).take qsize, rfl, rfl, ?_, ?_, ?_, ?_, ?_, ?_⟩
  · simp only [List.length_take, refuse_length]
    omega
  · rw [hg2, hflags.1]
    exact byte_or128_and _ (getD_lt_of_all buf 2 (by omega) hb)
  · rw [hg3, hflags.2]
    exact byte_or5_and15 _ (getD_lt_of_all buf 3 (by omega) hb)
  · rw [hg2]
    exact hflags.1
  · rw [hg3]
    exact hflags.2
  · intro i h2 h3
    by_cases hi : i < qsize
    · simp only [List.getD_eq_getElem?_getD]
      rw [List.getElem?_take_of_lt hi, List.getElem?_take_of_lt hi]
      have := refuse_getD_ne buf i h2 h3
      simpa [List.getD_eq_getElem?_getD] using this
    · simp only [List.getD_eq_getElem?_getD]
      rw [List.getElem?_eq_none (by simp [refuse_length]; omega),
        List.getElem?_eq_none (by simp; omega)]

/-- Closed instance of `refused_reply_preserves_query` at the concrete
blocked query `aPkt` (question name `a`, table `{a}`). -/
theorem refused_reply_preserves_query_witness :
    (mainStep aTable aPkt 15 none).reply.isSome = true := by
  obtain ⟨r, hr, _⟩ := refused_reply_preserves_query aTable aPkt 15 none [97] 3
    (by decide) (by decide) (by decide) (by decide) (by decide)
  rw [hr]
  rfl

/-- **C8, counterexample.**  A successful receive of a zero-byte datagram
returns 0, the same value `recv_with_timeout` returns for a timeout: the
two outcomes are not distinguishable by the return value. -/
theorem recv_zero_byte_counterexample :
    recv_with_timeout 1 0 = 0 ∧ recv_with_timeout 0 37 = 0 ∧
    recv_with_timeout 1 0 = recv_with_timeout 0 37 := by
  exact ⟨by decide, by decide, by decide⟩

/-- **C8 (amended).**  `recv_with_timeout` returns 0 on a poll timeout and
-1 on a poll error — mutually distinct — and passes the `recvfrom` result
through on readiness; every successful receive of a positive number of
bytes is distinct from both; but a zero-byte successful receive returns 0,
indistinguishable from a timeout. -/
theorem recv_with_timeout_outcomes :
    (∀ r : Int, recv_with_timeout 0 r = 0) ∧
    (∀ a r : Int, a < 0 → recv_with_timeout a r = -1) ∧
    (∀ a r : Int, 0 < a → recv_with_timeout a r = r) ∧
    (∀ a r r' : Int, a < 0 → recv_with_timeout 0 r ≠ recv_with_timeout a r') ∧
    (∀ a r : Int, 0 < a → 0 < r →
      recv_with_timeout a r ≠ 0 ∧ recv_with_timeout a r ≠ -1) ∧
    recv_with_timeout 1 0 = recv_with_timeout 0 0 := by
  refine ⟨?_, ?_, ?_, ?_, ?_, by decide⟩
  · intro r
    simp [recv_with_timeout]
  · intro a r ha
    rw [recv_with_timeout, if_neg (by omega), if_pos ha]
  · intro a r ha
    rw [recv_with_timeout, if_neg (by omega), if_neg (by omega)]
  · intro a r r' ha
    rw [recv_with_timeout, if_pos rfl, recv_with_timeout, if_neg (by omega), if_pos ha]
    omega
  · intro a r ha hr
    rw [recv_with_timeout, if_neg (by omega), if_neg (by omega)]
    omega

/-- Closed instance of `recv_with_timeout_outcomes`: a 7-byte successful
receive is distinct from both the timeout and the error return. -/
theorem recv_with_timeout_outcomes_witness :
    recv_with_timeout 1 7 ≠ 0 ∧ recv_with_timeout 1 7 ≠ -1 :=
  recv_with_timeout_outcomes.2.2.2.2.1 1 7 (by decide) (by decide)

/-- **C9.**  Every datagram shorter than the 12-byte DNS header is dropped
by the dispatcher immediately: the decoder is not invoked, no reply is
sent, nothing is forwarded. -/
theorem short_datagram_dropped :
    ∀ (bl : List (List Nat)) (buf : List Nat) (qsize : Nat)
      (upstream : Option (List Nat)),
      qsize < 12 →
      (mainStep bl buf qsize upstream).decoderInvoked = false ∧
      (mainStep bl buf qsize upstream).reply = none ∧
      (mainStep bl buf qsize upstream).forwarded = none := by
  intro bl buf qsize up h
  unfold mainStep
  rw [if_pos h]
  exact ⟨rfl, rfl, rfl⟩

/-- Closed instance of `short_datagram_dropped` on a 5-byte datagram. -/
theorem short_datagram_dropped_witness :
    (mainStep [] hdr12 5 none).decoderInvoked = false ∧
    (mainStep [] hdr12 5 none).reply = none ∧
    (mainStep [] hdr12 5 none).forwarded = none :=
  short_datagram_dropped [] hdr12 5 none (by decide)

/-- **C10** (the code evaluated at a failing input).  On the 512-byte
packet whose question name is the compression pointer `0xC3 0xFF`,
`read_name` dereferences packet-buffer index 1023 — the 14-bit jump target
— which lies outside the `DNS_BUFFER_SIZE`-byte packet buffer. -/
theorem read_name_reads_outside_buffer :
    oobPkt.length = DNS_BUFFER_SIZE ∧
    1023 ∈ (read_name_instr oobPkt 12).reads ∧
    DNS_BUFFER_SIZE ≤ 1023 := by
  exact ⟨by decide, by decide, by decide⟩

/-- Closed instance of `read_name_pointer_semantics`: on the packet with a
compressed name (pointer at offset 15 back to offset 12), the returned
consumed-byte count is exactly 2. -/
theorem read_name_pointer_semantics_witness :
    ((read_name compPkt 15).getD ([], 0)).2 = 2 := by
  have h2 : read_name compPkt 15 = some ([97], 2) := by decide
  have h := read_name_pointer_semantics.2.2 compPkt 15 [97] 2 (by decide) h2
  rw [h2]
  exact h

-- ====================================================================
-- Round-trip of the uncompressed label encoding (C7)
-- ====================================================================

theorem nameLen_nil : nameLen [] = 0 := rfl

theorem nameLen_cons (l : List Nat) (ls : List (List Nat)) :
    nameLen (l :: ls) = l.length + 1 + nameLen ls := by
  simp [nameLen]

theorem encodeName_length : ∀ ls : List (List Nat),
    (encodeName ls).length = nameLen ls + 1 := by
  intro ls
  induction ls with
  | nil => rfl
  | cons l ls ih =>
    simp [encodeName, nameLen_cons, ih]
    omega

theorem small_and_not_jump (n : Nat) (h : n < 64) :
    n &&& JUMP_HEX_VALUE ≠ JUMP_HEX_VALUE := by
  show n &&& 192 ≠ 192
  have hall : ∀ m < 64, m &&& 192 = 0 := by decide
  rw [hall n h]
  decide

theorem memcpyName_eq_writeBytes : ∀ (l : List Nat) (name : List Nat) (off : Nat)
    (buf : List Nat) (src : Nat),
    (∀ i, i < l.length → buf.getD (src + i) 0 = l.getD i 0) →
    memcpyName name off buf src l.length = writeBytes name off l := by
  intro l
  induction l with
  | nil => intro name off buf src _; rfl
  | cons c cs ih =>
    intro name off buf src hmatch
    have h0 : buf.getD src 0 = c := by
      have := hmatch 0 (by simp)
      simpa using this
    show memcpyName name off buf src (cs.length + 1) = _
    rw [memcpyName, h0, writeBytes]
    exact ih (name.set off c) (off + 1) buf (src + 1) (fun i hi => by
      have := hmatch (i + 1) (by simp; omega)
      simpa [Nat.add_assoc, Nat.add_comm 1 i] using this)

theorem writeBytes_length : ∀ (l name : List Nat) (off : Nat),
    (writeBytes name off l).length = name.length := by
  intro l
  induction l with
  | nil => intro name off; rfl
  | cons c cs ih =>
    intro name off
    rw [writeBytes, ih]
    simp

theorem writeBytes_splice : ∀ (l name : List Nat) (off : Nat),
    off + l.length ≤ name.length →
    writeBytes name off l = name.take off ++ l ++ name.drop (off + l.length) := by
  intro l
  induction l with
  | nil =>
    intro name off _
    simp [writeBytes]
  | cons c cs ih =>
    intro name off hle
    simp only [List.length_cons] at hle
    have hofflt : off < name.length := by omega
    rw [writeBytes]
    rw [ih (name.set off c) (off + 1) (by simp only [List.length_set]; omega)]
    have hA : (name.set off c).take (off + 1) = name.take off ++ [c] := by
      rw [List.set_eq_take_append_cons_drop, if_pos hofflt]
      rw [List.take_append_eq_append_take, List.take_take]
      have hmin : min (off + 1) off = off := by omega
      have hlen : (name.take off).length = off := by
        rw [List.length_take]
        omega
      rw [hmin, hlen]
      have h1 : off + 1 - off = 1 := by omega
      rw [h1]
      simp
    have hB : (name.set off c).drop (off + 1 + cs.length) = name.drop (off + 1 + cs.length) := by
      rw [List.drop_set, if_pos (by omega)]
    rw [hA, hB]
    have harith : off + 1 + cs.length = off + (cs.length + 1) := by omega
    rw [harith]
    simp

theorem writeLabels_length : ∀ (labels : List (List Nat)) (name : List Nat) (off : Nat),
    (writeLabels name off labels).length = name.length := by
  intro labels
  induction labels with
  | nil => intro name off; rfl
  | cons l ls ih =>
    intro name off
    rw [writeLabels, ih]
    simp [writeBytes_length]

theorem dotsAfter_cons (l : List Nat) (ls : List (List Nat)) :
    dotsAfter (l :: ls) = (l ++ [46]) ++ dotsAfter ls := by
  simp [dotsAfter]

theorem writeLabels_splice : ∀ (labels : List (List Nat)) (name : List Nat) (off : Nat),
    off + nameLen labels ≤ name.length →
    writeLabels name off labels =
      name.take off ++ dotsAfter labels ++ name.drop (off + nameLen labels) := by
  intro labels
  induction labels with
  | nil =>
    intro name off _
    simp [writeLabels, dotsAfter, nameLen]
  | cons l ls ih =>
    intro name off hle
    rw [nameLen_cons] at hle
    have hofflt : off + l.length < name.length := by omega
    rw [writeLabels]
    -- splice out the buffer state after this label's bytes and dot
    have hname1 : (writeBytes name off l).set (off + l.length) 46 =
        (name.take off ++ (l ++ [46])) ++ name.drop (off + l.length + 1) := by
      rw [writeBytes_splice l name off (by omega)]
      rw [List.append_assoc]
      rw [List.set_append_right _ _ (by rw [List.length_take]; omega)]
      have hlen : (name.take off).length = off := by
        rw [List.length_take]
        omega
      rw [hlen, Nat.add_sub_cancel_left]
      rw [List.set_append_right _ _ (by omega)]
      rw [Nat.sub_self]
      have hdropset : (name.drop (off + l.length)).set 0 46 =
          46 :: name.drop (off + l.length + 1) := by
        rw [List.set_eq_take_append_cons_drop,
          if_pos (by simp [List.length_drop]; omega)]
        simp [List.drop_drop]
      rw [hdropset]
      simp
    rw [hname1]
    have hlenP : (name.take off ++ (l ++ [46])).length = off + l.length + 1 := by
      simp [List.length_take]
      omega
    rw [ih ((name.take off ++ (l ++ [46])) ++ name.drop (off + l.length + 1))
      (off + l.length + 1)
      (by simp [List.length_take, List.length_drop]; omega)]
    have htake : ((name.take off ++ (l ++ [46])) ++ name.drop (off + l.length + 1)).take
        (off + l.length + 1) = name.take off ++ (l ++ [46]) := by
      rw [← hlenP]
      exact List.take_left _ _
    have hdrop : ((name.take off ++ (l ++ [46])) ++ name.drop (off + l.length + 1)).drop
        (off + l.length + 1 + nameLen ls) = name.drop (off + nameLen (l :: ls)) := by
      have harr : off + l.length + 1 + nameLen ls =
          (name.take off ++ (l ++ [46])).length + nameLen ls := by
        rw [hlenP]
      rw [harr, List.drop_append, List.drop_drop]
      rw [nameLen_cons]
      congr 1
      omega
    rw [htake, hdrop, dotsAfter_cons]
    rw [nameLen_cons]
    simp

theorem readNameLoop_on_labels (buf : List Nat) :
    ∀ (labels : List (List Nat)) (pos nameOff : Nat) (name : List Nat) (fuel : Nat),
      (∀ l ∈ labels, 0 < l.length ∧ l.length ≤ 63) →
      (∀ i, i < (encodeName labels).length →
        buf.getD (pos + i) 0 = (encodeName labels).getD i 0) →
      nameOff + nameLen labels ≤ 255 →
      labels.length ≤ fuel →
      (readNameLoop buf ⟨pos, nameOff, nameOff, false, name⟩ fuel).res =
        some ⟨pos + nameLen labels, nameOff + nameLen labels, nameOff + nameLen labels,
          false, writeLabels name nameOff labels⟩ := by
  intro labels
  induction labels with
  | nil =>
    intro pos nameOff name fuel _ hmatch _ _
    have h0 : buf.getD pos 0 = 0 := by
      have := hmatch 0 (by simp [encodeName])
      simpa [encodeName] using this
    cases fuel with
    | zero =>
      simp [readNameLoop, nameLen_nil, writeLabels]
    | succ fuel =>
      rw [readNameLoop, if_pos (Or.inl h0)]
      simp [nameLen_nil, writeLabels]
  | cons l ls ih =>
    intro pos nameOff name fuel hwf hmatch hbound hfuel
    obtain ⟨hl0, hl63⟩ := hwf l (List.mem_cons_self l ls)
    cases fuel with
    | zero => simp at hfuel
    | succ fuel =>
      have hb : buf.getD pos 0 = l.length := by
        have := hmatch 0 (by simp [encodeName])
        simpa [encodeName] using this
      have hNcons : nameLen (l :: ls) = l.length + 1 + nameLen ls := nameLen_cons l ls
      have hcond : ¬(buf.getD pos 0 = 0 ∨ DNS_NAME_SIZE ≤ nameOff) := by
        rw [hb]
        push_neg
        refine ⟨by omega, ?_⟩
        show nameOff < 256
        omega
      rw [readNameLoop, if_neg hcond]
      simp only [hb]
      rw [if_neg (small_and_not_jump l.length (by omega))]
      rw [if_neg (show ¬ DNS_NAME_SIZE ≤ nameOff + l.length + 1 by
        show ¬ 256 ≤ nameOff + l.length + 1
        omega)]
      have hsub : ∀ i, i < l.length → buf.getD (pos + 1 + i) 0 = l.getD i 0 := by
        intro i hi
        have hlen := encodeName_length (l :: ls)
        have := hmatch (1 + i) (by
          rw [hlen]
          omega)
        rw [show pos + (1 + i) = pos + 1 + i by omega] at this
        rw [this]
        show (encodeName (l :: ls)).getD (1 + i) 0 = l.getD i 0
        rw [show encodeName (l :: ls) = l.length :: (l ++ encodeName ls) from rfl]
        rw [show (1 : Nat) + i = i + 1 by omega]
        rw [List.getD_cons_succ]
        exact List.getD_append _ _ _ _ hi
      rw [memcpyName_eq_writeBytes l name nameOff buf (pos + 1) hsub]
      simp only [Bool.false_eq_true, if_false]
      have hrec := ih (pos + l.length + 1) (nameOff + l.length + 1)
        ((writeBytes name nameOff l).set (nameOff + l.length) 46) fuel
        (fun x hx => hwf x (List.mem_cons_of_mem l hx))
        (by
          intro i hi
          have hlen := encodeName_length (l :: ls)
          have hlen2 := encodeName_length ls
          have := hmatch (l.length + 1 + i) (by
            rw [hlen, hNcons]
            omega)
          rw [show pos + (l.length + 1 + i) = pos + l.length + 1 + i by omega] at this
          rw [this]
          show (encodeName (l :: ls)).getD (l.length + 1 + i) 0 = (encodeName ls).getD i 0
          rw [show encodeName (l :: ls) = (l.length :: l) ++ encodeName ls from rfl]
          rw [List.getD_append_right _ _ _ _ (by simp only [List.length_cons]; omega)]
          congr 1
          simp only [List.length_cons]
          omega)
        (by omega)
        (by simp at hfuel; omega)
      rw [hrec]
      simp only [Option.some.injEq, LoopSt.mk.injEq]
      refine ⟨by omega, by omega, by omega, trivial, ?_⟩
      rw [show writeLabels name nameOff (l :: ls) =
        writeLabels ((writeBytes name nameOff l).set (nameOff + l.length) 46)
          (nameOff + l.length + 1) ls from rfl]

theorem dotsAfter_eq_dotted : ∀ (l : List Nat) (ls : List (List Nat)),
    dotsAfter (l :: ls) = dottedName (l :: ls) ++ [46] := by
  intro l ls
  induction ls generalizing l with
  | nil => simp [dotsAfter, dottedName]
  | cons l2 ls ih =>
    rw [dotsAfter_cons]
    rw [ih l2]
    rw [show dottedName (l :: l2 :: ls) = l ++ 46 :: dottedName (l2 :: ls) from rfl]
    simp

theorem dottedName_length : ∀ (l : List Nat) (ls : List (List Nat)),
    (dottedName (l :: ls)).length + 2 = nameLen (l :: ls) + 1 := by
  intro l ls
  induction ls generalizing l with
  | nil =>
    rw [show dottedName [l] = l from rfl, nameLen_cons, nameLen_nil]
  | cons l2 ls ih =>
    rw [show dottedName (l :: l2 :: ls) = l ++ 46 :: dottedName (l2 :: ls) from rfl]
    have := ih l2
    rw [nameLen_cons]
    simp only [List.length_append, List.length_cons]
    omega

theorem dottedName_ne_zero : ∀ (l : List Nat) (ls : List (List Nat)),
    (∀ x ∈ l :: ls, ∀ c ∈ x, c ≠ 0) →
    ∀ c ∈ dottedName (l :: ls), c ≠ 0 := by
  intro l ls
  induction ls generalizing l with
  | nil =>
    intro h c hc
    exact h l (List.mem_cons_self _ _) c hc
  | cons l2 ls ih =>
    intro h c hc
    rw [show dottedName (l :: l2 :: ls) = l ++ 46 :: dottedName (l2 :: ls) from rfl] at hc
    rcases List.mem_append.mp hc with hc | hc
    · exact h l (List.mem_cons_self _ _) c hc
    · rcases List.mem_cons.mp hc with rfl | hc
      · decide
      · exact ih l2 (fun x hx => h x (List.mem_cons_of_mem _ hx)) c hc

theorem cString_append_zero : ∀ (as bs : List Nat),
    (∀ a ∈ as, a ≠ 0) → cString (as ++ 0 :: bs) = as := by
  intro as bs h
  unfold cString
  rw [List.takeWhile_append_of_pos (by
    intro a ha
    simpa using h a ha)]
  simp [List.takeWhile_cons]

/-- **C7 (amended).**  Decoding the uncompressed label encoding of a dotted
name of at most `MAX_LOOP_COUNT` labels reproduces that name exactly (the
trailing separator is stripped, and a zero-length name decodes to the
empty string, not a leading dot), and the consumed count is the wire size
of the name including its terminator. -/
theorem read_name_roundtrip :
    ∀ (pre : List Nat) (labels : List (List Nat)),
      (∀ l ∈ labels, 0 < l.length ∧ l.length ≤ 63 ∧ ∀ c ∈ l, c ≠ 0) →
      nameLen labels ≤ 255 →
      labels.length ≤ MAX_LOOP_COUNT →
      read_name (pre ++ encodeName labels) pre.length =
        some (dottedName labels, nameLen labels + 1) := by
  intro pre labels hwf hlen hcnt
  have hmatch : ∀ i, i < (encodeName labels).length →
      (pre ++ encodeName labels).getD (pre.length + i) 0 = (encodeName labels).getD i 0 := by
    intro i _
    rw [List.getD_append_right _ _ _ _ (by omega)]
    congr 1
    omega
  have hloop := readNameLoop_on_labels (pre ++ encodeName labels) labels pre.length 0
    (List.replicate DNS_NAME_SIZE 0) MAX_LOOP_COUNT
    (fun x hx => ⟨(hwf x hx).1, (hwf x hx).2.1⟩) hmatch (by omega) hcnt
  have hsome := read_name_eq_some (pre ++ encodeName labels) pre.length _ hloop
  rw [hsome]
  cases labels with
  | nil =>
    simp only [nameLen_nil, Nat.add_zero, Nat.zero_add, Bool.false_eq_true, if_false]
    decide
  | cons l ls =>
    have hN := nameLen_cons l ls
    have hl0 := (hwf l (List.mem_cons_self l ls)).1
    have hdlen := dottedName_length l ls
    simp only [Nat.zero_add, Bool.false_eq_true, if_false]
    rw [if_pos (by omega : 0 < nameLen (l :: ls))]
    rw [writeLabels_splice (l :: ls) (List.replicate DNS_NAME_SIZE 0) 0 (by
      rw [List.length_replicate]
      show 0 + nameLen (l :: ls) ≤ 256
      omega)]
    simp only [List.take_zero, List.nil_append, Nat.zero_add, List.drop_replicate]
    rw [dotsAfter_eq_dotted l ls]
    rw [List.append_assoc]
    simp only [List.singleton_append]
    rw [List.set_append_right _ _ (by omega)]
    have hidx : nameLen (l :: ls) - 1 - (dottedName (l :: ls)).length = 0 := by
      omega
    rw [hidx, List.set_cons_zero]
    rw [cString_append_zero _ _ (dottedName_ne_zero l ls (fun x hx c hc => (hwf x hx).2.2 c hc))]

/-- **C7, counterexample.**  A valid 203-byte wire name of 101 single-byte
labels decodes to only its first 100 labels: the loop bound truncates the
name, so decoding the encoding does not reproduce the name. -/
theorem roundtrip_label_limit_counterexample :
    (read_name pkt101 12).map Prod.fst = some (dottedName (List.replicate 100 [97])) ∧
    dottedName (List.replicate 100 [97]) ≠ dottedName labels101 := by
  exact ⟨by decide, by decide⟩

/-- Closed instance of `read_name_roundtrip`: the `www.example.com` packet
decodes to exactly `www.example.com` with count 17. -/
theorem read_name_roundtrip_witness :
    read_name wwwPkt 12 = some (strBytes "www.example.com", 17) := by
  have h := read_name_roundtrip hdr12 wwwLabels (by decide) (by decide) (by decide)
  rw [show wwwPkt = hdr12 ++ encodeName wwwLabels from rfl]
  rw [show (12 : Nat) = hdr12.length from rfl]
  rw [h]
  decide

end PiBlocker
